import Mathlib

/-!
Verification of the match-discovery / span-partitioning core of the
US-Code document viewer (the `DocumentModal` component).

The embedding translates, from the source:
  * the stopword set `commonWords`;
  * term expansion (escape the whole phrase, split on whitespace runs,
    keep words of length ≥ 3 whose lowercase form is not a stopword);
  * regex-literal escaping (`replace(/[.*+?^${}()|[\]\\]/g, '\\$&')`) and
    the compilation of the escaped patterns into one case-insensitive
    alternation (`new RegExp('(' + patterns.join('|') + ')', 'gi')`);
  * the occurrence scanner (the `regex.exec` loop of the match-position
    effect: repeated leftmost match, cursor advanced to match end);
  * the position index (`percentage = index / textLength * 100`, combined
    list sorted by `index`; `Array.prototype.sort` is stable per ES2019,
    modelled by a stable insertion sort);
  * the span partitioner `highlightText` (`text.split(regex)` with a
    capturing group, running start-offset cursor, classification primary
    before secondary, try/catch fallback to a single plain span);
  * the match-position effect including its `if (!documentText) return`
    guard (modelled as a function from the previous state to the next).

Strings are modelled as `List Char`.  The case-insensitive (`i`) flag is
modelled by comparing `Char.toLower` images; a JavaScript regex compiled
from escaped patterns denotes a literal alternation, so a compiled
pattern is modelled as the list of its literal alternatives, obtained by
parsing each escaped pattern back to the literal it denotes
(`parseLiteralRegex`), which fails exactly when a pattern contains a
metacharacter that is not escaped.  All alternatives produced by the
program are non-empty literals, so the `exec`/`split` loops terminate;
the fuel used below (`text.length + 1`) is provably sufficient for them.
-/

inductive Fam where
  | primary
  | secondary
deriving DecidableEq, Repr

/-- Lowercasing used to model the case-insensitive `i` flag and
`toLowerCase()` calls. -/
def lower (s : List Char) : List Char := s.map Char.toLower

/-- The metacharacters escaped by `replace(/[.*+?^${}()|[\]\\]/g, '\\$&')`. -/
def isRegexMeta (c : Char) : Bool :=
  c ∈ ['.', '*', '+', '?', '^', '$', '\x7b', '\x7d', '(', ')', '|', '[', ']', '\\']

/-- `term.replace(/[.*+?^${}()|[\]\\]/g, '\\$&')`: every metacharacter is
prefixed with a backslash, every other character is kept. -/
def escapeRegex (s : List Char) : List Char :=
  (s.map (fun c => if isRegexMeta c then ['\\', c] else [c])).flatten

/-- Parse an escaped pattern back to the literal string it denotes.
Fails (like `new RegExp`) when the pattern is not a plain literal, i.e.
when an unescaped metacharacter occurs. -/
def parseLiteralRegex : List Char → Option (List Char)
  | [] => some []
  | c :: rest =>
    if c = '\\' then
      match rest with
      | [] => none
      | d :: rest2 => (parseLiteralRegex rest2).map (d :: ·)
    else if isRegexMeta c then none
    else (parseLiteralRegex rest).map (c :: ·)

/-- `new RegExp('(' + patterns.join('|') + ')', 'gi')`: the compiled
pattern is the alternation of the literals denoted by the escaped
patterns; compilation fails if some alternative is not a literal. -/
def compileAlternation : List (List Char) → Option (List (List Char))
  | [] => some []
  | p :: ps =>
    match parseLiteralRegex p, compileAlternation ps with
    | some l, some ls => some (l :: ls)
    | _, _ => none

/-- The `commonWords` stopword set of the component. -/
def commonWords : List (List Char) :=
  (["the", "and", "or", "to", "from", "in", "on", "at", "by", "for", "with",
    "about", "as", "into", "through", "during", "before", "after", "above",
    "below", "between", "under", "since", "without", "within", "of", "off",
    "out", "over", "up", "down", "near", "along", "among", "across", "behind",
    "beyond", "plus", "except", "but", "per", "via", "upon", "against"]).map String.data

/-- Splitting on runs of whitespace, `phrase.split(/\s+/)`: pieces between
maximal whitespace runs, including a leading or trailing empty piece when
the phrase starts or ends with whitespace.  The `inSep` flag records that
the previous character was part of a separator run whose piece has
already been emitted. -/
def splitWsGo : List Char → Bool → List Char → List (List Char)
  | [], _, acc => [acc.reverse]
  | c :: rest, inSep, acc =>
    if c.isWhitespace then
      if inSep then splitWsGo rest true []
      else acc.reverse :: splitWsGo rest true []
    else
      splitWsGo rest false (c :: acc)

def splitWs (cs : List Char) : List (List Char) := splitWsGo cs false []

/-- The words of a phrase that pass the word-level filter: length at
least 3 and lowercase form not a stopword. -/
def wordCandidates (phrase : List Char) : List (List Char) :=
  (splitWs phrase).filter
    (fun w => decide (3 ≤ w.length) && !(commonWords.contains (lower w)))

/-- Term expansion: the escaped whole phrase followed by the escaped
filtered words, in split order (the `patterns.push` sequence of the
source). -/
def expandPatterns (phrase : List Char) : List (List Char) :=
  escapeRegex phrase :: (wordCandidates phrase).map escapeRegex

/-- The `primaryWords` / `secondaryWords` sets of `highlightText`: the
lowercase forms of the filtered words. -/
def familyWords (phrase : List Char) : List (List Char) :=
  (wordCandidates phrase).map lower

/-- JavaScript truthiness of a nullable string: `null` and the empty
string are falsy.  `phraseOf term` is the active phrase, if any. -/
def phraseOf : Option (List Char) → Option (List Char)
  | none => none
  | some s => if s.isEmpty then none else some s

/-- A single alternative `lit` of a case-insensitive literal alternation
matches the text at position `i`. -/
def matchesAt (text : List Char) (i : Nat) (lit : List Char) : Bool :=
  decide (i + lit.length ≤ text.length) &&
    lower ((text.drop i).take lit.length) == lower lit

/-- First alternative (in pattern order) matching at position `i`; the
ordered alternation of a JavaScript regex is first-alternative-wins. -/
def firstLitAt (lits : List (List Char)) (text : List Char) (i : Nat) :
    Option (List Char) :=
  lits.find? (fun lit => matchesAt text i lit)

/-- Leftmost match at or after position `i`, trying at most `k` start
positions; returns the match offset and the matched slice of the text. -/
def nextMatchAux (lits : List (List Char)) (text : List Char) :
    Nat → Nat → Option (Nat × List Char)
  | 0, _ => none
  | k + 1, i =>
    match firstLitAt lits text i with
    | some lit => some (i, (text.drop i).take lit.length)
    | none => nextMatchAux lits text k (i + 1)

/-- Leftmost match of the alternation at or after the cursor `c`, as
found by `regex.exec` with `lastIndex = c`. -/
def nextMatch (lits : List (List Char)) (text : List Char) (c : Nat) :
    Option (Nat × List Char) :=
  nextMatchAux lits text (text.length + 1 - c) c

/-- The `while ((match = regex.exec(documentText)) !== null)` loop:
repeated leftmost matching, cursor advanced to match end. -/
def scanGo (lits : List (List Char)) (text : List Char) :
    Nat → Nat → List (Nat × List Char)
  | 0, _ => []
  | fuel + 1, c =>
    match nextMatch lits text c with
    | none => []
    | some (i, s) => (i, s) :: scanGo lits text fuel (i + s.length)

def scanMatches (lits : List (List Char)) (text : List Char) :
    List (Nat × List Char) :=
  scanGo lits text (text.length + 1) 0

/-- `text.split(regex)` with a single capturing group covering the whole
pattern: the pieces outside the matches interleaved with the matched
(captured) pieces, in text order. -/
def splitGo (lits : List (List Char)) (text : List Char) :
    Nat → Nat → List (List Char)
  | 0, c => [text.drop c]
  | fuel + 1, c =>
    match nextMatch lits text c with
    | none => [text.drop c]
    | some (i, s) =>
      (text.drop c).take (i - c) :: s :: splitGo lits text fuel (i + s.length)

def splitParts (lits : List (List Char)) (text : List Char) :
    List (List Char) :=
  splitGo lits text (text.length + 1) 0

/-- One rendered piece of the text: its characters, its highlight family
(`none` = plain span), and, for highlighted pieces, the start offset in
the original text under which the element is registered in `matchRefs`. -/
structure RenderSpan where
  text : List Char
  family : Option Fam
  positionKey : Option Nat
deriving DecidableEq, Repr

/-- One family's check on a lowercased piece `pl`: the term is active and
the piece equals the whole phrase case-insensitively or is a member of
that family's word set (`partLower === term.toLowerCase() ||
primaryWords.has(partLower)`). -/
def famCond (ph : Option (List Char)) (ws : List (List Char))
    (pl : List Char) : Bool :=
  match ph with
  | some t => pl == lower t || ws.contains pl
  | none => false

/-- Classification of one piece of the split, with `partStart` the
running-cursor value: primary is checked before secondary, each check is
whole-phrase equality (case-insensitive) or membership of the lowercase
piece in that family's word set. -/
def classifySpan (pt ps : Option (List Char)) (pw sw : List (List Char))
    (partStart : Nat) (p : List Char) : RenderSpan :=
  if famCond pt pw (lower p) then
    ⟨p, some Fam.primary, some partStart⟩
  else if famCond ps sw (lower p) then
    ⟨p, some Fam.secondary, some partStart⟩
  else
    ⟨p, none, none⟩

/-- The `parts.map` of `highlightText`, threading the running character
cursor `currentIndex`. -/
def classifyParts (pt ps : Option (List Char)) (pw sw : List (List Char)) :
    Nat → List (List Char) → List RenderSpan
  | _, [] => []
  | idx, p :: rest =>
    classifySpan pt ps pw sw idx p ::
      classifyParts pt ps pw sw (idx + p.length) rest

/-- The body of the `try` block of `highlightText`: build the combined
pattern list (primary phrase, primary words, secondary phrase, secondary
words), compile the alternation, split the text and classify the pieces.
`none` models a thrown exception. -/
def highlightTextTry (text : List Char) (pt ps : Option (List Char)) :
    Option (List RenderSpan) :=
  let patterns :=
    (match pt with | some t => expandPatterns t | none => []) ++
    (match ps with | some t => expandPatterns t | none => [])
  let pw := match pt with | some t => familyWords t | none => []
  let sw := match ps with | some t => familyWords t | none => []
  (compileAlternation patterns).map
    (fun lits => classifyParts pt ps pw sw 0 (splitParts lits text))

/-- The `catch` of `highlightText`: a thrown exception yields the entire
unmodified text as a single plain span. -/
def highlightTextCatch (text : List Char) (r : Option (List RenderSpan)) :
    List RenderSpan :=
  match r with
  | some spans => spans
  | none => [⟨text, none, none⟩]

/-- The public partition entry point `highlightText`: with no active term
the whole text is one plain span, otherwise the try body runs under the
catch fallback. -/
def highlightText (text : List Char) (term secondaryTerm : Option (List Char)) :
    List RenderSpan :=
  if (phraseOf term).isNone && (phraseOf secondaryTerm).isNone then
    [⟨text, none, none⟩]
  else
    highlightTextCatch text
      (highlightTextTry text (phraseOf term) (phraseOf secondaryTerm))

/-- One entry of the scroll-minimap position index. -/
structure MatchPosition where
  index : Nat
  term : List Char
  type : Fam
  percentage : ℚ
deriving DecidableEq, Repr

/-- One family's scan of the match-position effect: expand the phrase,
compile that family's own alternation and record every occurrence with
its offset, matched text and `index / textLength * 100` percentage. -/
def scanFamily (ph : Option (List Char)) (fam : Fam) (text : List Char) :
    List MatchPosition :=
  match ph with
  | none => []
  | some t =>
    match compileAlternation (expandPatterns t) with
    | none => []
    | some lits =>
      (scanMatches lits text).map
        (fun occ => ⟨occ.1, occ.2, fam, (occ.1 : ℚ) / (text.length : ℚ) * 100⟩)

/-- Stable insertion by `index` (an element is placed before every
already-inserted element with an index at least as large). -/
def insertByIndex (m : MatchPosition) : List MatchPosition → List MatchPosition
  | [] => [m]
  | x :: xs =>
    if m.index ≤ x.index then m :: x :: xs else x :: insertByIndex m xs

/-- `positions.sort((a, b) => a.index - b.index)`: a stable sort by
offset (`Array.prototype.sort` is stable). -/
def sortByIndex : List MatchPosition → List MatchPosition
  | [] => []
  | x :: xs => insertByIndex x (sortByIndex xs)

/-- The position list computed by the match-position effect for a
(non-empty) text: primary scan followed by secondary scan, sorted by
offset. -/
def computeMatchPositions (text : List Char) (term secondaryTerm : Option (List Char)) :
    List MatchPosition :=
  sortByIndex
    (scanFamily (phraseOf term) Fam.primary text ++
     scanFamily (phraseOf secondaryTerm) Fam.secondary text)

/-- The whole match-position effect as a state transformer: the
`if (!documentText) return` guard leaves the previous list in place;
otherwise the list is recomputed in full and replaces the previous one. -/
def matchPositionsEffect (prev : List MatchPosition) (text : List Char)
    (term secondaryTerm : Option (List Char)) : List MatchPosition :=
  if text.isEmpty then prev else computeMatchPositions text term secondaryTerm

/-- The literal alternatives denoted by one family's compiled pattern:
the phrase followed by its filtered words (empty when the family is
inactive). -/
def famLits : Option (List Char) → List (List Char)
  | some t => t :: wordCandidates t
  | none => []

/-- One family's expanded word set (empty when the family is inactive). -/
def famWordsOf : Option (List Char) → List (List Char)
  | some t => familyWords t
  | none => []

/-- Unfolding of `escapeRegex` on a cons. -/
theorem escapeRegex_cons (c : Char) (rest : List Char) :
    escapeRegex (c :: rest) =
      (if isRegexMeta c then ['\\', c] else [c]) ++ escapeRegex rest := by
  simp only [escapeRegex, List.map_cons, List.flatten_cons]

/-- Escaping and then reading the pattern back as a literal is the
identity: escaping loses no characters and protects every
metacharacter. -/
theorem parse_escape (s : List Char) :
    parseLiteralRegex (escapeRegex s) = some s := by
  induction s with
  | nil => rfl
  | cons c rest ih =>
    by_cases hm : isRegexMeta c = true
    · rw [escapeRegex_cons, if_pos hm]
      show parseLiteralRegex ('\\' :: c :: escapeRegex rest) = some (c :: rest)
      rw [parseLiteralRegex]
      simp [ih]
    · have hb : ¬(c = '\\') := by
        intro h
        subst h
        exact hm rfl
      rw [escapeRegex_cons, if_neg hm]
      show parseLiteralRegex (c :: escapeRegex rest) = some (c :: rest)
      rw [parseLiteralRegex.eq_def]
      simp [hb, hm, ih]

/-- Escaping is injective. -/
theorem escapeRegex_inj {a b : List Char}
    (h : escapeRegex a = escapeRegex b) : a = b := by
  have ha := parse_escape a
  rw [h, parse_escape b] at ha
  exact (Option.some_inj.mp ha).symm

/-- Compiling a list of escaped patterns always succeeds and denotes the
original literals. -/
theorem compile_map_escape (L : List (List Char)) :
    compileAlternation (L.map escapeRegex) = some L := by
  induction L with
  | nil => rfl
  | cons p ps ih =>
    simp [compileAlternation, parse_escape, ih]

/-- The expansion of a phrase is the escape of the phrase and of each
filtered word. -/
theorem expandPatterns_eq_map (t : List Char) :
    expandPatterns t = (t :: wordCandidates t).map escapeRegex := rfl

/-- The combined pattern list of `highlightText` is the escape of the
two families' literals. -/
theorem patterns_eq_map (pt ps : Option (List Char)) :
    ((match pt with | some t => expandPatterns t | none => []) ++
     (match ps with | some t => expandPatterns t | none => [])) =
      (famLits pt ++ famLits ps).map escapeRegex := by
  cases pt <;> cases ps <;>
    simp [expandPatterns_eq_map, famLits, List.map_append]

/-- The try body of `highlightText` never throws: its compiled pattern
is an alternation of escaped literals, so compilation succeeds, and the
result is the classified split of the text. -/
theorem highlightTry_eq (text : List Char) (pt ps : Option (List Char)) :
    highlightTextTry text pt ps =
      some (classifyParts pt ps (famWordsOf pt) (famWordsOf ps) 0
        (splitParts (famLits pt ++ famLits ps) text)) := by
  simp only [highlightTextTry]
  rw [patterns_eq_map, compile_map_escape, Option.map_some']
  cases pt <;> cases ps <;> rfl

/-- What a successful `nextMatchAux` result satisfies: the offset is at
or after the start position, and the matched slice is the text slice of
the length of a matching alternative. -/
theorem nextMatchAux_spec (lits : List (List Char)) (text : List Char) :
    ∀ k i o s, nextMatchAux lits text k i = some (o, s) →
      i ≤ o ∧ ∃ lit ∈ lits, matchesAt text o lit = true ∧
        s = (text.drop o).take lit.length := by
  intro k
  induction k with
  | zero => intro i o s h; simp [nextMatchAux] at h
  | succ k ih =>
    intro i o s h
    simp only [nextMatchAux] at h
    cases hf : firstLitAt lits text i with
    | some lit =>
      rw [hf] at h
      injection h with h1
      injection h1 with ho hs
      subst ho
      subst hs
      refine ⟨Nat.le_refl _, lit, ?_, ?_, rfl⟩
      · exact List.mem_of_find?_eq_some hf
      · exact List.find?_some hf
    | none =>
      rw [hf] at h
      obtain ⟨hle, rest⟩ := ih (i + 1) o s h
      exact ⟨Nat.le_of_succ_le hle, rest⟩

/-- Unfolding of a successful single-alternative match. -/
theorem matchesAt_spec {text : List Char} {i : Nat} {lit : List Char}
    (h : matchesAt text i lit = true) :
    i + lit.length ≤ text.length ∧
      lower ((text.drop i).take lit.length) = lower lit := by
  simp only [matchesAt, Bool.and_eq_true, decide_eq_true_eq, beq_iff_eq] at h
  exact h

/-- Everything a successful `nextMatch` guarantees: cursor bound, text
bound, and a case-insensitive equal alternative whose length the matched
slice has. -/
theorem nextMatch_spec {lits : List (List Char)} {text : List Char}
    {c o : Nat} {s : List Char}
    (h : nextMatch lits text c = some (o, s)) :
    c ≤ o ∧ o + s.length ≤ text.length ∧
      ∃ lit ∈ lits, lower s = lower lit ∧ s.length = lit.length ∧
        s = (text.drop o).take lit.length := by
  obtain ⟨hle, lit, hmem, hmatch, hs⟩ := nextMatchAux_spec lits text _ c o s h
  obtain ⟨hbound, hlow⟩ := matchesAt_spec hmatch
  have hlen : s.length = lit.length := by
    rw [hs, List.length_take, List.length_drop]
    exact Nat.min_eq_left (Nat.le_sub_of_add_le (Nat.add_comm lit.length o ▸ hbound))
  refine ⟨hle, ?_, lit, hmem, ?_, hlen, hs⟩
  · rw [hlen]; exact hbound
  · rw [hs, hlow]

/-- Concatenating the pieces of the split reproduces the text from the
cursor on, whatever the fuel. -/
theorem splitGo_flatten (lits : List (List Char)) (text : List Char) :
    ∀ fuel c, (splitGo lits text fuel c).flatten = text.drop c := by
  intro fuel
  induction fuel with
  | zero => intro c; simp [splitGo]
  | succ fuel ih =>
    intro c
    simp only [splitGo]
    cases h : nextMatch lits text c with
    | none => simp
    | some os =>
      obtain ⟨o, s⟩ := os
      obtain ⟨hco, hbound, lit, hmem, hlow, hlen, hshape⟩ := nextMatch_spec h
      simp only [List.flatten_cons, ih]
      have h1 : s ++ text.drop (o + s.length) = text.drop o := by
        rw [hlen, hshape, ← List.drop_drop]
        exact List.take_append_drop _ _
      have h2 : text.drop o = (text.drop c).drop (o - c) := by
        rw [List.drop_drop, Nat.add_sub_cancel' hco]
      rw [h1, h2]
      exact List.take_append_drop _ _

/-- The classified spans carry exactly the split pieces as their texts. -/
theorem classifySpan_text (pt ps : Option (List Char))
    (pw sw : List (List Char)) (k : Nat) (p : List Char) :
    (classifySpan pt ps pw sw k p).text = p := by
  unfold classifySpan
  split
  · rfl
  · split <;> rfl

theorem classifyParts_texts (pt ps : Option (List Char))
    (pw sw : List (List Char)) :
    ∀ parts k, (classifyParts pt ps pw sw k parts).map RenderSpan.text = parts := by
  intro parts
  induction parts with
  | nil => intro k; rfl
  | cons p rest ih =>
    intro k
    simp [classifyParts, classifySpan_text, ih]

/-- C1: for every input text and any pair of possibly absent search
terms, concatenating the texts of the spans emitted by `highlightText`,
in order, reproduces the input text exactly (including empty text and
absent terms). -/
theorem c1_coverage (text : List Char) (term secondaryTerm : Option (List Char)) :
    ((highlightText text term secondaryTerm).map RenderSpan.text).flatten = text := by
  unfold highlightText
  split
  · simp
  · rw [highlightTry_eq]
    show ((classifyParts _ _ _ _ 0 _).map RenderSpan.text).flatten = text
    rw [classifyParts_texts]
    unfold splitParts
    rw [splitGo_flatten]
    rfl

/-- Every occurrence emitted by the scan loop starts at or after the
cursor, fits inside the text, and is the case-insensitive image of one
of the alternatives. -/
theorem scanGo_mem (lits : List (List Char)) (text : List Char) :
    ∀ fuel c, ∀ occ ∈ scanGo lits text fuel c,
      c ≤ occ.1 ∧ occ.1 + occ.2.length ≤ text.length ∧
        ∃ lit ∈ lits, lower occ.2 = lower lit ∧ occ.2.length = lit.length := by
  intro fuel
  induction fuel with
  | zero => intro c occ h; simp [scanGo] at h
  | succ fuel ih =>
    intro c occ h
    simp only [scanGo] at h
    cases hn : nextMatch lits text c with
    | none => rw [hn] at h; simp at h
    | some os =>
      obtain ⟨i, s⟩ := os
      rw [hn] at h
      obtain ⟨hci, hbound, lit, hmem, hlow, hlen, -⟩ := nextMatch_spec hn
      rcases List.mem_cons.mp h with rfl | htail
      · exact ⟨hci, hbound, lit, hmem, hlow, hlen⟩
      · obtain ⟨hc2, rest⟩ := ih (i + s.length) occ htail
        exact ⟨Nat.le_trans hci (Nat.le_trans (Nat.le_add_right _ _) hc2), rest⟩

/-- Occurrences of one scan never overlap: each one ends at or before
the next one starts. -/
theorem scanGo_pairwise (lits : List (List Char)) (text : List Char) :
    ∀ fuel c,
      List.Pairwise (fun a b => a.1 + a.2.length ≤ b.1) (scanGo lits text fuel c) := by
  intro fuel
  induction fuel with
  | zero => intro c; simp [scanGo]
  | succ fuel ih =>
    intro c
    simp only [scanGo]
    cases hn : nextMatch lits text c with
    | none => simp
    | some os =>
      obtain ⟨i, s⟩ := os
      refine List.Pairwise.cons ?_ (ih (i + s.length))
      intro b hb
      exact (scanGo_mem lits text fuel (i + s.length) b hb).1

/-- Offsets of one scan are strictly increasing when every alternative
of the compiled pattern is non-empty. -/
theorem scanMatches_pairwise_lt (lits : List (List Char)) (text : List Char)
    (hne : ∀ lit ∈ lits, lit ≠ []) :
    List.Pairwise (fun a b => a.1 < b.1) (scanMatches lits text) := by
  refine (scanGo_pairwise lits text (text.length + 1) 0).imp_of_mem ?_
  intro a b ha hb hab
  obtain ⟨-, -, lit, hlit, -, hlen⟩ :=
    scanGo_mem lits text (text.length + 1) 0 a ha
  have : 0 < lit.length := List.length_pos.mpr (hne lit hlit)
  omega

/-- C6: for any compiled alternation of non-empty literal alternatives
and any text, the occurrence scanner's output is non-overlapping and
left-to-right: each occurrence ends at or before the next begins, and
the offsets are strictly increasing. -/
theorem c6_scanner_monotone (lits : List (List Char)) (text : List Char)
    (hne : ∀ lit ∈ lits, lit ≠ []) :
    List.Chain' (fun a b => a.1 + a.2.length ≤ b.1) (scanMatches lits text) ∧
    List.Pairwise (fun a b => a.1 < b.1) (scanMatches lits text) :=
  ⟨(scanGo_pairwise lits text (text.length + 1) 0).chain',
    scanMatches_pairwise_lt lits text hne⟩

theorem c6_scanner_monotone_witness :
    (∀ lit ∈ ["ab".data], lit ≠ ([] : List Char)) ∧
    (List.Chain' (fun a b => a.1 + a.2.length ≤ b.1)
        (scanMatches ["ab".data] "abab".data) ∧
      List.Pairwise (fun a b => a.1 < b.1) (scanMatches ["ab".data] "abab".data)) :=
  ⟨by decide, c6_scanner_monotone ["ab".data] "abab".data (by decide)⟩

/-- Words surviving the word-level filter are non-empty (length at
least 3). -/
theorem wordCandidates_ne_nil {phrase w : List Char}
    (hw : w ∈ wordCandidates phrase) : w ≠ [] := by
  intro hnil
  subst hnil
  have := (List.mem_filter.mp hw).2
  simp at this

/-- All alternatives of a family's compiled pattern are non-empty when
the phrase is. -/
theorem famLits_ne_nil {t : List Char} (ht : t ≠ []) :
    ∀ lit ∈ t :: wordCandidates t, lit ≠ [] := by
  intro lit hl
  rcases List.mem_cons.mp hl with rfl | h
  · exact ht
  · exact wordCandidates_ne_nil h

/-- C9: for every occurrence the scanner finds at offset `o` in a text
of length `L > 0`, the percentage `o / L * 100` computed by the position
indexer satisfies `0 ≤ percentage < 100`; every `MatchPosition` of
`scanFamily` carries exactly that percentage of one such occurrence. -/
theorem c9_percentage_bounds (text t : List Char) (ht : t ≠ [])
    (hL : 0 < text.length) :
    (∀ occ ∈ scanMatches (t :: wordCandidates t) text,
        0 ≤ ((occ.1 : ℚ) / (text.length : ℚ)) * 100 ∧
          ((occ.1 : ℚ) / (text.length : ℚ)) * 100 < 100) ∧
    ∀ fam : Fam, ∀ m ∈ scanFamily (some t) fam text,
      ∃ occ ∈ scanMatches (t :: wordCandidates t) text,
        m.index = occ.1 ∧
          m.percentage = ((occ.1 : ℚ) / (text.length : ℚ)) * 100 := by
  constructor
  · intro occ hocc
    obtain ⟨-, hbound, lit, hlit, -, hlen⟩ :=
      scanGo_mem _ text (text.length + 1) 0 occ hocc
    have hpos : 0 < lit.length := List.length_pos.mpr (famLits_ne_nil ht lit hlit)
    have hlt : occ.1 < text.length := by omega
    constructor
    · positivity
    · have hQ : (occ.1 : ℚ) < (text.length : ℚ) := by exact_mod_cast hlt
      have hQL : (0 : ℚ) < (text.length : ℚ) := by exact_mod_cast hL
      have hdiv : (occ.1 : ℚ) / (text.length : ℚ) < 1 := (div_lt_one hQL).mpr hQ
      calc ((occ.1 : ℚ) / (text.length : ℚ)) * 100
          < 1 * 100 := by
            exact mul_lt_mul_of_pos_right hdiv (by norm_num)
        _ = 100 := one_mul _
  · intro fam m hm
    have hc : compileAlternation (expandPatterns t) = some (t :: wordCandidates t) := by
      rw [expandPatterns_eq_map]
      exact compile_map_escape _
    simp only [scanFamily, hc] at hm
    obtain ⟨occ, hocc, rfl⟩ := List.mem_map.mp hm
    exact ⟨occ, hocc, rfl, rfl⟩

theorem c9_percentage_bounds_witness :
    ("ab".data ≠ ([] : List Char)) ∧ 0 < "ab".data.length ∧
    (((0, "ab".data) : Nat × List Char) ∈
        scanMatches ("ab".data :: wordCandidates "ab".data) "ab".data) ∧
    (0 ≤ ((((0, "ab".data) : Nat × List Char).1 : ℚ) / ("ab".data.length : ℚ)) * 100 ∧
      ((((0, "ab".data) : Nat × List Char).1 : ℚ) / ("ab".data.length : ℚ)) * 100 < 100) :=
  ⟨by decide, by decide, by decide,
    (c9_percentage_bounds "ab".data "ab".data (by decide) (by decide)).1 _ (by decide)⟩

/-- C4: the public partition entry point never throws: its try body
always yields a result (compilation of escaped patterns cannot fail,
for any text and any terms, metacharacter-only terms included), and the
catch handler of a failed try yields the entire unmodified text as one
plain span. -/
theorem c4_fallback_safety (text : List Char) (term secondaryTerm : Option (List Char)) :
    (highlightTextTry text (phraseOf term) (phraseOf secondaryTerm)).isSome = true ∧
    ∀ r : Option (List RenderSpan), r.isSome = false →
      highlightTextCatch text r = [⟨text, none, none⟩] := by
  constructor
  · rw [highlightTry_eq]
    rfl
  · intro r hr
    cases r with
    | none => rfl
    | some spans => simp at hr

theorem c4_fallback_safety_witness :
    (highlightTextTry "x(a".data (phraseOf (some "(a+".data)) (phraseOf none)).isSome = true ∧
    ((none : Option (List RenderSpan)).isSome = false ∧
      highlightTextCatch "x(a".data none = [⟨"x(a".data, none, none⟩]) :=
  ⟨(c4_fallback_safety "x(a".data (some "(a+".data) none).1,
    rfl,
    (c4_fallback_safety "x(a".data (some "(a+".data) none).2 none rfl⟩

/-- C5: expansion of a non-empty phrase always contains the (escaped)
whole phrase, and contains a whitespace-separated word of the phrase as
an additional pattern exactly when the word has length at least 3 and
its lowercase form is not a stopword. -/
theorem c5_expansion (phrase : List Char) (hp : phrase ≠ []) :
    escapeRegex phrase ∈ expandPatterns phrase ∧
    ∀ w ∈ splitWs phrase,
      (escapeRegex w ∈ (expandPatterns phrase).tail ↔
        (3 ≤ w.length ∧ lower w ∉ commonWords)) := by
  refine ⟨List.mem_cons_self _ _, ?_⟩
  intro w hw
  have htail : (expandPatterns phrase).tail = (wordCandidates phrase).map escapeRegex := rfl
  constructor
  · intro hmem
    rw [htail] at hmem
    obtain ⟨w', hw', he⟩ := List.mem_map.mp hmem
    rw [escapeRegex_inj he] at hw'
    have hpred := (List.mem_filter.mp hw').2
    simp only [Bool.and_eq_true, decide_eq_true_eq, Bool.not_eq_true'] at hpred
    refine ⟨hpred.1, ?_⟩
    intro hmem2
    have : commonWords.contains (lower w) = true := by
      simp [List.contains, List.elem_eq_mem, hmem2]
    rw [this] at hpred
    exact absurd hpred.2 (by simp)
  · rintro ⟨h3, hnc⟩
    rw [htail]
    refine List.mem_map_of_mem _ (List.mem_filter.mpr ⟨hw, ?_⟩)
    simp [h3, List.contains, List.elem_eq_mem, hnc]

theorem c5_expansion_witness :
    ("the quick fox".data ≠ ([] : List Char)) ∧
    escapeRegex "the quick fox".data ∈ expandPatterns "the quick fox".data ∧
    ("quick".data ∈ splitWs "the quick fox".data) ∧
    (escapeRegex "quick".data ∈ (expandPatterns "the quick fox".data).tail ↔
      (3 ≤ "quick".data.length ∧ lower "quick".data ∉ commonWords)) :=
  ⟨by decide,
    (c5_expansion "the quick fox".data (by decide)).1,
    by decide,
    (c5_expansion "the quick fox".data (by decide)).2 "quick".data (by decide)⟩

/-- Every span produced by the classification pass is the classification
of one of the pieces. -/
theorem classifyParts_mem {pt ps : Option (List Char)} {pw sw : List (List Char)} :
    ∀ {parts : List (List Char)} {k : Nat} {sp : RenderSpan},
      sp ∈ classifyParts pt ps pw sw k parts →
        ∃ j p, p ∈ parts ∧ sp = classifySpan pt ps pw sw j p := by
  intro parts
  induction parts with
  | nil => intro k sp h; simp [classifyParts] at h
  | cons p rest ih =>
    intro k sp h
    rcases List.mem_cons.mp h with rfl | htail
    · exact ⟨k, p, List.mem_cons_self _ _, rfl⟩
    · obtain ⟨j, q, hq, hsp⟩ := ih htail
      exact ⟨j, q, List.mem_cons_of_mem _ hq, hsp⟩

/-- A piece passing a family's check when that family's phrase is
active. -/
theorem famCond_of {t : List Char} (ws : List (List Char)) {pl : List Char}
    (h : pl = lower t ∨ pl ∈ ws) : famCond (some t) ws pl = true := by
  rcases h with h | h
  · simp [famCond, h]
  · simp [famCond, List.contains, List.elem_eq_mem, h]

/-- A piece passing the primary check is classified primary, whatever
the secondary data. -/
theorem classifySpan_primary {pt ps : Option (List Char)}
    {pw sw : List (List Char)} {k : Nat} {p : List Char}
    (h : famCond pt pw (lower p) = true) :
    classifySpan pt ps pw sw k p = ⟨p, some Fam.primary, some k⟩ := by
  unfold classifySpan
  rw [if_pos h]

/-- C7: a span whose (lowercased) text equals the active primary phrase
or belongs to the primary word set is always rendered primary — the
primary check precedes the secondary check, so a piece matched by both
families classifies as primary. -/
theorem c7_primary_precedence (text : List Char)
    (term secondaryTerm : Option (List Char)) (t : List Char)
    (ht : phraseOf term = some t) (sp : RenderSpan)
    (hsp : sp ∈ highlightText text term secondaryTerm)
    (hcond : lower sp.text = lower t ∨ lower sp.text ∈ familyWords t) :
    sp.family = some Fam.primary := by
  unfold highlightText at hsp
  rw [ht, highlightTry_eq] at hsp
  simp only [Option.isNone_some, Bool.false_and, Bool.false_eq_true, if_false,
    highlightTextCatch] at hsp
  obtain ⟨j, p, -, rfl⟩ := classifyParts_mem hsp
  rw [classifySpan_text] at hcond
  have hcond2 : lower p = lower t ∨ lower p ∈ famWordsOf (some t) := hcond
  rw [classifySpan_primary (famCond_of _ hcond2)]

theorem c7_primary_precedence_witness :
    (phraseOf (some "tax".data) = some "tax".data) ∧
    ((⟨"tax".data, some Fam.primary, some 0⟩ : RenderSpan) ∈
      highlightText "tax".data (some "tax".data) (some "tax".data)) ∧
    (lower (⟨"tax".data, some Fam.primary, some 0⟩ : RenderSpan).text =
        lower "tax".data ∨
      lower (⟨"tax".data, some Fam.primary, some 0⟩ : RenderSpan).text ∈
        familyWords "tax".data) ∧
    (⟨"tax".data, some Fam.primary, some 0⟩ : RenderSpan).family =
      some Fam.primary :=
  ⟨rfl, by decide, Or.inl rfl,
    c7_primary_precedence "tax".data (some "tax".data) (some "tax".data)
      "tax".data rfl _ (by decide) (Or.inl rfl)⟩

/-- The possible position keys of a classified piece: nothing, or the
piece's start offset. -/
theorem classifySpan_key_cases (pt ps : Option (List Char))
    (pw sw : List (List Char)) (k : Nat) (p : List Char) :
    (classifySpan pt ps pw sw k p).positionKey = none ∨
      (classifySpan pt ps pw sw k p).positionKey = some k := by
  unfold classifySpan
  split
  · exact Or.inr rfl
  · split
    · exact Or.inr rfl
    · exact Or.inl rfl

/-- A classified piece is highlighted exactly when it carries a position
key. -/
theorem classifySpan_family_key (pt ps : Option (List Char))
    (pw sw : List (List Char)) (k : Nat) (p : List Char) :
    (classifySpan pt ps pw sw k p).family.isSome =
      (classifySpan pt ps pw sw k p).positionKey.isSome := by
  unfold classifySpan
  split
  · rfl
  · split <;> rfl

/-- Neither family's check accepts the empty piece when the active
phrases are non-empty and the word sets have no empty member. -/
theorem famCond_nil_false {ph : Option (List Char)} {ws : List (List Char)}
    (hph : ∀ u, ph = some u → u ≠ []) (hws : [] ∉ ws) :
    famCond ph ws [] = false := by
  cases ph with
  | none => rfl
  | some u =>
    have hu := hph u rfl
    have h1 : (([] : List Char) == lower u) = false := by
      rw [beq_eq_false_iff_ne]
      intro h
      exact hu (List.map_eq_nil_iff.mp h.symm)
    simp [famCond, h1, hws]

/-- The empty piece is always classified as a plain span (under the
same conditions). -/
theorem classifySpan_nil {pt ps : Option (List Char)} {pw sw : List (List Char)}
    (hpt : ∀ u, pt = some u → u ≠ []) (hps : ∀ u, ps = some u → u ≠ [])
    (hpw : [] ∉ pw) (hsw : [] ∉ sw) (k : Nat) :
    classifySpan pt ps pw sw k [] = ⟨[], none, none⟩ := by
  have h1 := famCond_nil_false hpt hpw
  have h2 := famCond_nil_false hps hsw
  unfold classifySpan
  rw [show lower [] = [] from rfl, h1, h2]
  rfl

/-- An active phrase is non-empty. -/
theorem phraseOf_ne_nil (o : Option (List Char)) :
    ∀ u, phraseOf o = some u → u ≠ [] := by
  intro u h
  cases o with
  | none => simp [phraseOf] at h
  | some s =>
    simp only [phraseOf] at h
    split at h
    · exact absurd h (by simp)
    · next hne =>
        injection h with h
        subst h
        intro hnil
        exact hne (by simp [hnil])

/-- No family word set contains the empty string: surviving words have
length at least 3 and lowercasing preserves length. -/
theorem famWordsOf_nil_notMem (o : Option (List Char)) : [] ∉ famWordsOf o := by
  cases o with
  | none => simp [famWordsOf]
  | some t =>
    simp only [famWordsOf, familyWords]
    intro h
    obtain ⟨w, hw, hl⟩ := List.mem_map.mp h
    have hwnil : w = [] := List.map_eq_nil_iff.mp hl
    subst hwnil
    exact wordCandidates_ne_nil hw rfl

/-- The keys of the classified pieces are strictly increasing and all at
or after the running cursor. -/
theorem classifyParts_keys {pt ps : Option (List Char)} {pw sw : List (List Char)}
    (hpt : ∀ u, pt = some u → u ≠ []) (hps : ∀ u, ps = some u → u ≠ [])
    (hpw : [] ∉ pw) (hsw : [] ∉ sw) :
    ∀ (parts : List (List Char)) (k : Nat),
      List.Pairwise (· < ·)
        ((classifyParts pt ps pw sw k parts).filterMap RenderSpan.positionKey) ∧
      ∀ x ∈ (classifyParts pt ps pw sw k parts).filterMap RenderSpan.positionKey,
        k ≤ x := by
  intro parts
  induction parts with
  | nil =>
    intro k
    exact ⟨List.Pairwise.nil, by intro x hx; simp [classifyParts] at hx⟩
  | cons p rest ih =>
    intro k
    cases hkey : (classifySpan pt ps pw sw k p).positionKey with
    | none =>
      have heq : (classifyParts pt ps pw sw k (p :: rest)).filterMap RenderSpan.positionKey
          = (classifyParts pt ps pw sw (k + p.length) rest).filterMap RenderSpan.positionKey := by
        simp [classifyParts, List.filterMap_cons, hkey]
      rw [heq]
      obtain ⟨h1, h2⟩ := ih (k + p.length)
      exact ⟨h1, fun x hx => Nat.le_trans (Nat.le_add_right _ _) (h2 x hx)⟩
    | some j =>
      have hkey2 : (classifySpan pt ps pw sw k p).positionKey = some k := by
        rcases classifySpan_key_cases pt ps pw sw k p with h | h
        · rw [hkey] at h; exact absurd h (by simp)
        · exact h
      have hpne : p ≠ [] := by
        intro hnil
        subst hnil
        rw [classifySpan_nil hpt hps hpw hsw] at hkey2
        simp at hkey2
      have hlen : 0 < p.length := List.length_pos.mpr hpne
      have heq : (classifyParts pt ps pw sw k (p :: rest)).filterMap RenderSpan.positionKey
          = k :: (classifyParts pt ps pw sw (k + p.length) rest).filterMap RenderSpan.positionKey := by
        simp [classifyParts, List.filterMap_cons, hkey2]
      rw [heq]
      obtain ⟨h1, h2⟩ := ih (k + p.length)
      refine ⟨List.Pairwise.cons ?_ h1, ?_⟩
      · intro x hx
        have := h2 x hx
        omega
      · intro x hx
        rcases List.mem_cons.mp hx with rfl | h
        · exact Nat.le_refl _
        · have := h2 x h
          omega

/-- C10: the position keys of the highlighted spans emitted by the
partitioner are strictly increasing in emitted order (hence pairwise
distinct, so the offset-keyed `matchRefs` registration never sees two
highlighted spans with the same key), every highlighted span is
non-empty, and a span is highlighted exactly when it carries a key. -/
theorem c10_distinct_keys (text : List Char) (term secondaryTerm : Option (List Char)) :
    List.Pairwise (· < ·)
      ((highlightText text term secondaryTerm).filterMap RenderSpan.positionKey) ∧
    (∀ sp ∈ highlightText text term secondaryTerm,
      sp.family.isSome = true → sp.text ≠ []) ∧
    ∀ sp ∈ highlightText text term secondaryTerm,
      sp.family.isSome = sp.positionKey.isSome := by
  have hpt := phraseOf_ne_nil term
  have hps := phraseOf_ne_nil secondaryTerm
  have hpw := famWordsOf_nil_notMem (phraseOf term)
  have hsw := famWordsOf_nil_notMem (phraseOf secondaryTerm)
  unfold highlightText
  split
  · refine ⟨by simp [List.filterMap], ?_, ?_⟩
    · intro sp hsp hfam
      rcases List.mem_singleton.mp hsp with rfl
      simp at hfam
    · intro sp hsp
      rcases List.mem_singleton.mp hsp with rfl
      rfl
  · rw [highlightTry_eq]
    simp only [highlightTextCatch]
    refine ⟨(classifyParts_keys hpt hps hpw hsw _ 0).1, ?_, ?_⟩
    · intro sp hsp hfam
      obtain ⟨j, p, -, rfl⟩ := classifyParts_mem hsp
      rw [classifySpan_text]
      intro hnil
      subst hnil
      rw [classifySpan_nil hpt hps hpw hsw] at hfam
      simp at hfam
    · intro sp hsp
      obtain ⟨j, p, -, rfl⟩ := classifyParts_mem hsp
      exact classifySpan_family_key _ _ _ _ _ _

/-- Tie-breaking key: twice the offset, plus one for the secondary
family.  Sorting stably by offset a list in which, at equal offsets,
primary entries precede secondary ones is sorting by this key. -/
def famBit : Fam → Nat
  | Fam.primary => 0
  | Fam.secondary => 1

def mpKey (m : MatchPosition) : Nat := 2 * m.index + famBit m.type

theorem famBit_le_one (f : Fam) : famBit f ≤ 1 := by
  cases f <;> simp [famBit]

theorem mpKey_lt_of_index_lt {a b : MatchPosition} (h : a.index < b.index) :
    mpKey a < mpKey b := by
  have ha := famBit_le_one a.type
  have hb := famBit_le_one b.type
  simp only [mpKey]
  omega

theorem index_le_of_mpKey_lt {a b : MatchPosition} (h : mpKey a < mpKey b) :
    a.index ≤ b.index := by
  have ha := famBit_le_one a.type
  have hb := famBit_le_one b.type
  simp only [mpKey] at h
  omega

theorem mpKey_tie {a b : MatchPosition} (h : mpKey a < mpKey b)
    (hi : a.index = b.index) :
    a.type = Fam.primary ∧ b.type = Fam.secondary := by
  simp only [mpKey, hi] at h
  have hbit : famBit a.type < famBit b.type := by omega
  cases ha : a.type <;> cases hb : b.type <;>
    simp [famBit, ha, hb] at hbit ⊢

theorem mem_insertByIndex {x m : MatchPosition} {l : List MatchPosition} :
    x ∈ insertByIndex m l ↔ x = m ∨ x ∈ l := by
  induction l with
  | nil => simp [insertByIndex]
  | cons y ys ih =>
    simp only [insertByIndex]
    split
    · simp [List.mem_cons]
    · simp only [List.mem_cons, ih]
      tauto

theorem mem_sortByIndex {x : MatchPosition} {l : List MatchPosition} :
    x ∈ sortByIndex l ↔ x ∈ l := by
  induction l with
  | nil => simp [sortByIndex]
  | cons y ys ih =>
    simp only [sortByIndex, mem_insertByIndex, List.mem_cons, ih]

/-- Inserting below preserves key-sortedness when the inserted element's
key beats every element it is placed before. -/
theorem insert_pairwise_key {m : MatchPosition} {l : List MatchPosition}
    (hl : List.Pairwise (fun a b => mpKey a < mpKey b) l)
    (hm : ∀ b ∈ l, m.index ≤ b.index → mpKey m < mpKey b) :
    List.Pairwise (fun a b => mpKey a < mpKey b) (insertByIndex m l) := by
  induction l with
  | nil => simp [insertByIndex]
  | cons y ys ih =>
    simp only [insertByIndex]
    split
    · next hle =>
      refine List.Pairwise.cons ?_ hl
      intro z hz
      rcases List.mem_cons.mp hz with rfl | hz2
      · exact hm z (List.mem_cons_self _ _) hle
      · have h1 : mpKey m < mpKey y := hm y (List.mem_cons_self _ _) hle
        have h2 : mpKey y < mpKey z := List.rel_of_pairwise_cons hl hz2
        omega
    · next hgt =>
      have hyx : y.index < m.index := Nat.lt_of_not_le hgt
      refine List.Pairwise.cons ?_
        (ih (List.Pairwise.sublist (List.sublist_cons_self y ys) hl)
          (fun b hb hle => hm b (List.mem_cons_of_mem _ hb) hle))
      intro z hz
      rcases mem_insertByIndex.mp hz with rfl | hz2
      · exact mpKey_lt_of_index_lt hyx
      · exact List.rel_of_pairwise_cons hl hz2

/-- The stable sort by offset of a list in which any earlier element
with an offset not larger than a later one also has a smaller key is
sorted by key. -/
theorem sort_pairwise_key {l : List MatchPosition}
    (h : List.Pairwise (fun a b => a.index ≤ b.index → mpKey a < mpKey b) l) :
    List.Pairwise (fun a b => mpKey a < mpKey b) (sortByIndex l) := by
  induction l with
  | nil => simp [sortByIndex]
  | cons x xs ih =>
    simp only [sortByIndex]
    refine insert_pairwise_key (ih (List.Pairwise.sublist (List.sublist_cons_self x xs) h)) ?_
    intro b hb hle
    exact List.rel_of_pairwise_cons h (mem_sortByIndex.mp hb) hle

/-- Every entry a family scan emits carries that family tag. -/
theorem scanFamily_types {ph : Option (List Char)} {fam : Fam} {text : List Char} :
    ∀ m ∈ scanFamily ph fam text, m.type = fam := by
  intro m hm
  cases ph with
  | none => simp [scanFamily] at hm
  | some t =>
    simp only [scanFamily] at hm
    cases hc : compileAlternation (expandPatterns t) with
    | none => rw [hc] at hm; simp at hm
    | some lits =>
      rw [hc] at hm
      obtain ⟨occ, -, rfl⟩ := List.mem_map.mp hm
      rfl

/-- Within one family the scan offsets are strictly increasing (the
compiled alternatives of an active phrase are non-empty). -/
theorem scanFamily_index_lt {ph : Option (List Char)} {fam : Fam} {text : List Char}
    (hph : ∀ u, ph = some u → u ≠ []) :
    List.Pairwise (fun a b => a.index < b.index) (scanFamily ph fam text) := by
  cases ph with
  | none => simp [scanFamily]
  | some t =>
    have ht : t ≠ [] := hph t rfl
    have hc : compileAlternation (expandPatterns t) = some (t :: wordCandidates t) := by
      rw [expandPatterns_eq_map]
      exact compile_map_escape _
    simp only [scanFamily, hc]
    refine List.Pairwise.map _ ?_
      (scanMatches_pairwise_lt _ text (famLits_ne_nil ht))
    intro a b hab
    exact hab

/-- C8: the position index is sorted by offset ascending, and entries
with equal offsets keep the primary-family entry before the
secondary-family one (the stable sort preserves the family-scan order:
primary entries are pushed before secondary ones). -/
theorem c8_sorted_stable (text : List Char) (term secondaryTerm : Option (List Char)) :
    List.Pairwise (fun a b => a.index ≤ b.index)
      (computeMatchPositions text term secondaryTerm) ∧
    List.Pairwise (fun a b => a.index = b.index →
        a.type = Fam.primary ∧ b.type = Fam.secondary)
      (computeMatchPositions text term secondaryTerm) := by
  have hkey : List.Pairwise (fun a b => mpKey a < mpKey b)
      (computeMatchPositions text term secondaryTerm) := by
    apply sort_pairwise_key
    rw [List.pairwise_append]
    refine ⟨?_, ?_, ?_⟩
    · refine List.Pairwise.imp ?_ (scanFamily_index_lt (phraseOf_ne_nil term))
      intro a b hab _
      exact mpKey_lt_of_index_lt hab
    · refine List.Pairwise.imp ?_ (scanFamily_index_lt (phraseOf_ne_nil secondaryTerm))
      intro a b hab _
      exact mpKey_lt_of_index_lt hab
    · intro a ha b hb hle
      have hta : a.type = Fam.primary := scanFamily_types a ha
      have htb : b.type = Fam.secondary := scanFamily_types b hb
      simp only [mpKey, hta, htb, famBit]
      omega
  constructor
  · exact hkey.imp (fun h => index_le_of_mpKey_lt h)
  · exact hkey.imp (fun h hi => mpKey_tie h hi)

/-- When every alternative of the compiled pattern classifies a matched
piece as highlighted, every occurrence of the scan loop corresponds to a
highlighted span of the split of the same text with the same pattern:
the span's position key is the occurrence's offset.  Scan and split
consume the text through the same `nextMatch`, so they agree piecewise. -/
theorem scan_split_corr (lits : List (List Char)) (text : List Char)
    (pt ps : Option (List Char)) (pw sw : List (List Char))
    (H : ∀ (i : Nat) (s : List Char), (∃ lit ∈ lits, lower s = lower lit) →
      (classifySpan pt ps pw sw i s).positionKey = some i ∧
        (classifySpan pt ps pw sw i s).family.isSome = true) :
    ∀ fuel c, ∀ occ ∈ scanGo lits text fuel c,
      ∃ sp ∈ classifyParts pt ps pw sw c (splitGo lits text fuel c),
        sp.positionKey = some occ.1 ∧ sp.family.isSome = true := by
  intro fuel
  induction fuel with
  | zero => intro c occ h; simp [scanGo] at h
  | succ fuel ih =>
    intro c occ h
    simp only [scanGo] at h
    cases hn : nextMatch lits text c with
    | none => rw [hn] at h; simp at h
    | some os =>
      obtain ⟨i, s⟩ := os
      rw [hn] at h
      obtain ⟨hci, hbound, lit, hmem, hlow, hlen, -⟩ := nextMatch_spec hn
      have hgaplen : ((text.drop c).take (i - c)).length = i - c := by
        rw [List.length_take, List.length_drop]
        omega
      have hclass : classifyParts pt ps pw sw c (splitGo lits text (fuel + 1) c) =
          classifySpan pt ps pw sw c ((text.drop c).take (i - c)) ::
            classifySpan pt ps pw sw (c + (i - c)) s ::
            classifyParts pt ps pw sw (c + (i - c) + s.length)
              (splitGo lits text fuel (i + s.length)) := by
        simp [splitGo, hn, classifyParts, hgaplen]
      have hci2 : c + (i - c) = i := by omega
      rcases List.mem_cons.mp h with heq | htail
      · subst heq
        refine ⟨classifySpan pt ps pw sw (c + (i - c)) s, ?_, ?_, ?_⟩
        · rw [hclass]
          exact List.mem_cons_of_mem _ (List.mem_cons_self _ _)
        · rw [hci2]
          exact (H i s ⟨lit, hmem, hlow⟩).1
        · rw [hci2]
          exact (H i s ⟨lit, hmem, hlow⟩).2
      · obtain ⟨sp, hsp, hkeys⟩ := ih (i + s.length) occ htail
        refine ⟨sp, ?_, hkeys⟩
        rw [hclass]
        have harith : c + (i - c) + s.length = i + s.length := by omega
        rw [harith]
        exact List.mem_cons_of_mem _ (List.mem_cons_of_mem _ hsp)

/-- With the primary family active, a piece matching any alternative of
that family's pattern is highlighted with its start offset as key. -/
theorem corrH_primary {t : List Char} (ps : Option (List Char))
    (sw : List (List Char)) :
    ∀ (i : Nat) (s : List Char),
      (∃ lit ∈ t :: wordCandidates t, lower s = lower lit) →
      (classifySpan (some t) ps (familyWords t) sw i s).positionKey = some i ∧
        (classifySpan (some t) ps (familyWords t) sw i s).family.isSome = true := by
  rintro i s ⟨lit, hmem, hlow⟩
  have hcond : lower s = lower t ∨ lower s ∈ familyWords t := by
    rcases List.mem_cons.mp hmem with rfl | h
    · exact Or.inl hlow
    · refine Or.inr ?_
      rw [hlow]
      exact List.mem_map_of_mem lower h
  rw [classifySpan_primary (famCond_of _ hcond)]
  exact ⟨rfl, rfl⟩

/-- A piece passing the secondary check with no primary family active is
classified secondary. -/
theorem classifySpan_secondary {t : List Char} {pw sw : List (List Char)}
    {k : Nat} {p : List Char}
    (h : famCond (some t) sw (lower p) = true) :
    classifySpan none (some t) pw sw k p = ⟨p, some Fam.secondary, some k⟩ := by
  unfold classifySpan
  rw [if_neg (by simp [famCond]), if_pos h]

/-- With only the secondary family active, a piece matching any
alternative of that family's pattern is highlighted with its start
offset as key. -/
theorem corrH_secondary {t : List Char} (pw : List (List Char)) :
    ∀ (i : Nat) (s : List Char),
      (∃ lit ∈ t :: wordCandidates t, lower s = lower lit) →
      (classifySpan none (some t) pw (familyWords t) i s).positionKey = some i ∧
        (classifySpan none (some t) pw (familyWords t) i s).family.isSome = true := by
  rintro i s ⟨lit, hmem, hlow⟩
  have hcond : lower s = lower t ∨ lower s ∈ familyWords t := by
    rcases List.mem_cons.mp hmem with rfl | h
    · exact Or.inl hlow
    · refine Or.inr ?_
      rw [hlow]
      exact List.mem_map_of_mem lower h
  rw [classifySpan_secondary (famCond_of _ hcond)]
  exact ⟨rfl, rfl⟩

/-- An active non-empty phrase passes through `phraseOf` untouched. -/
theorem phraseOf_some {t : List Char} (ht : t ≠ []) :
    phraseOf (some t) = some t := by
  show (if t.isEmpty = true then none else some t) = some t
  rw [if_neg]
  simp [List.isEmpty_iff, ht]

/-- C2 counterexample: with text `"abc"`, primary term `"ab"` and
secondary term `"bc"`, the per-family scanner records a secondary
occurrence at offset 1, but no render span of the combined-pattern
partitioner has position key 1 — the combined pattern consumes `"ab"`
first and offset 1 falls inside the consumed match. -/
theorem c2_offset_mismatch_counterexample :
    ∃ m ∈ computeMatchPositions "abc".data (some "ab".data) (some "bc".data),
      ∀ sp ∈ highlightText "abc".data (some "ab".data) (some "bc".data),
        sp.positionKey ≠ some m.index := by
  decide

/-- C2 amended: when only one family is active, the two derivations
agree on offsets — every `MatchPosition` of the scanner resolves to a
highlighted span of the partitioner whose position key is that entry's
offset. -/
theorem c2_single_family_agreement (text t : List Char) (ht : t ≠ []) :
    (∀ m ∈ computeMatchPositions text (some t) none,
        ∃ sp ∈ highlightText text (some t) none,
          sp.positionKey = some m.index ∧ sp.family.isSome = true) ∧
    (∀ m ∈ computeMatchPositions text none (some t),
        ∃ sp ∈ highlightText text none (some t),
          sp.positionKey = some m.index ∧ sp.family.isSome = true) := by
  have hph := phraseOf_some ht
  have hc : compileAlternation (expandPatterns t) = some (t :: wordCandidates t) := by
    rw [expandPatterns_eq_map]
    exact compile_map_escape _
  constructor
  · intro m hm
    have hmdef : computeMatchPositions text (some t) none =
        sortByIndex (scanFamily (some t) Fam.primary text) := by
      unfold computeMatchPositions
      rw [hph, show phraseOf none = none from rfl,
        show scanFamily none Fam.secondary text = [] from rfl, List.append_nil]
    rw [hmdef] at hm
    have hm2 : m ∈ scanFamily (some t) Fam.primary text := mem_sortByIndex.mp hm
    simp only [scanFamily, hc] at hm2
    obtain ⟨occ, hocc, rfl⟩ := List.mem_map.mp hm2
    have hcorr := scan_split_corr (t :: wordCandidates t) text (some t) none
      (familyWords t) [] (corrH_primary none []) (text.length + 1) 0 occ hocc
    obtain ⟨sp, hsp, hkey, hfam⟩ := hcorr
    refine ⟨sp, ?_, hkey, hfam⟩
    unfold highlightText
    rw [hph, highlightTry_eq]
    simp only [Option.isNone_some, Bool.false_and, Bool.false_eq_true, if_false,
      highlightTextCatch]
    show sp ∈ classifyParts (some t) (phraseOf none)
      (famWordsOf (some t)) (famWordsOf (phraseOf none)) 0
      (splitParts (famLits (some t) ++ famLits (phraseOf none)) text)
    simpa [phraseOf, famLits, famWordsOf, splitParts] using hsp
  · intro m hm
    have hmdef : computeMatchPositions text none (some t) =
        sortByIndex (scanFamily (some t) Fam.secondary text) := by
      unfold computeMatchPositions
      rw [hph, show phraseOf none = none from rfl,
        show scanFamily none Fam.primary text = [] from rfl, List.nil_append]
    rw [hmdef] at hm
    have hm2 : m ∈ scanFamily (some t) Fam.secondary text := mem_sortByIndex.mp hm
    simp only [scanFamily, hc] at hm2
    obtain ⟨occ, hocc, rfl⟩ := List.mem_map.mp hm2
    have hcorr := scan_split_corr (t :: wordCandidates t) text none (some t)
      [] (familyWords t) (corrH_secondary []) (text.length + 1) 0 occ hocc
    obtain ⟨sp, hsp, hkey, hfam⟩ := hcorr
    refine ⟨sp, ?_, hkey, hfam⟩
    unfold highlightText
    rw [hph, highlightTry_eq]
    simp only [Option.isNone_some, Bool.and_false, Bool.false_eq_true, if_false,
      highlightTextCatch]
    show sp ∈ classifyParts (phraseOf none) (some t)
      (famWordsOf (phraseOf none)) (famWordsOf (some t)) 0
      (splitParts (famLits (phraseOf none) ++ famLits (some t)) text)
    simpa [phraseOf, famLits, famWordsOf, splitParts] using hsp

theorem c2_single_family_agreement_witness :
    ("ab".data ≠ ([] : List Char)) ∧
    ((∀ m ∈ computeMatchPositions "xaby".data (some "ab".data) none,
        ∃ sp ∈ highlightText "xaby".data (some "ab".data) none,
          sp.positionKey = some m.index ∧ sp.family.isSome = true) ∧
      (∀ m ∈ computeMatchPositions "xaby".data none (some "ab".data),
        ∃ sp ∈ highlightText "xaby".data none (some "ab".data),
          sp.positionKey = some m.index ∧ sp.family.isSome = true)) :=
  ⟨by decide, c2_single_family_agreement "xaby".data "ab".data (by decide)⟩

/-- C3 counterexample: with empty text the effect returns early and the
previous position list survives — the index is not recomputed and the
stale entry of the previous text remains. -/
theorem c3_stale_counterexample :
    matchPositionsEffect [⟨0, ['x'], Fam.primary, 0⟩] [] (some ['x']) none =
      [⟨0, ['x'], Fam.primary, 0⟩] ∧
    ([⟨0, ['x'], Fam.primary, 0⟩] : List MatchPosition) ≠ [] :=
  ⟨rfl, by simp⟩

/-- C3 amended: for non-empty text the position index is recomputed in
full — the result is a pure function of the text and the terms, and the
previous list is discarded; for empty text the effect returns early and
keeps the previous list (in particular no division by zero is ever
performed, since the percentage computation only runs on non-empty
text). -/
theorem c3_recompute_amended (prev : List MatchPosition) (text : List Char)
    (term secondaryTerm : Option (List Char)) :
    (text ≠ [] → matchPositionsEffect prev text term secondaryTerm =
      computeMatchPositions text term secondaryTerm) ∧
    matchPositionsEffect prev [] term secondaryTerm = prev := by
  constructor
  · intro h
    unfold matchPositionsEffect
    rw [if_neg]
    simp [List.isEmpty_iff, h]
  · rfl

theorem c3_recompute_amended_witness :
    ("a".data ≠ ([] : List Char)) ∧
    matchPositionsEffect [] "a".data none none =
      computeMatchPositions "a".data none none ∧
    matchPositionsEffect [] [] none none = [] :=
  ⟨by decide,
    (c3_recompute_amended [] "a".data none none).1 (by decide),
    (c3_recompute_amended [] [] none none).2⟩
